import Mathlib

/-!
Verification of the HTML metadata extractor and filter
(`src/get-metadata.js`): a shallow embedding of the two exported
functions `getMetadata` and `filterMetadata` together with the helper
functions they use, followed by theorems about the embedded code.

Strings are modelled at the level of their character lists (`String` in
Lean is a structure over `List Char`, so the two views are definitionally
interchangeable).  JavaScript `null`/`undefined` values are modelled as
`Option.none`.  The fixed regular expressions of the source are modelled
by a small matcher covering exactly the constructs those patterns use:
case-insensitive literals, `\s*`, an optional character (`\/?`), and a
single lazy capture group `(.*?)` whose dot excludes line terminators,
with leftmost-match `exec` semantics.
-/

namespace GetMetadata

/-- JavaScript `\s` whitespace class (the code points of the ECMAScript
WhiteSpace and LineTerminator productions). -/
def isWS (c : Char) : Bool :=
  c = ' ' || c = '\t' || c = '\n' || c = '\r' ||
  c = Char.ofNat 0x0b || c = Char.ofNat 0x0c ||
  c = Char.ofNat 0xa0 || c = Char.ofNat 0x1680 ||
  (0x2000 ≤ c.toNat && c.toNat ≤ 0x200a) ||
  c = Char.ofNat 0x2028 || c = Char.ofNat 0x2029 ||
  c = Char.ofNat 0x202f || c = Char.ofNat 0x205f ||
  c = Char.ofNat 0x3000 || c = Char.ofNat 0xfeff

/-- JavaScript `.` without the `s` flag: any character except a line
terminator. -/
def isDot (c : Char) : Bool :=
  !(c = '\n' || c = '\r' || c = Char.ofNat 0x2028 || c = Char.ofNat 0x2029)

/-- One item of a regular-expression pattern, covering exactly the
constructs used by `NODES_REG_EXPS`. -/
inductive RItem where
  | lit (c : Char)
  | wsStar
  | optChar (c : Char)
deriving DecidableEq, Repr

/-- Matches a sequence of simple items against a prefix of `cs`
(case-insensitively for literals, as all the source patterns carry the
`i` flag), returning the remaining characters.  `\s*` is consumed
greedily, which is faithful here because in every source pattern `\s*`
is followed by a non-whitespace literal; `c?` is greedy with
backtracking. -/
def matchSimple : List RItem → List Char → Option (List Char)
  | [], cs => some cs
  | .lit _ :: _, [] => none
  | .lit c :: rest, x :: xs =>
      if x.toLower = c.toLower then matchSimple rest xs else none
  | .wsStar :: rest, cs => matchSimple rest (cs.dropWhile isWS)
  | .optChar _ :: rest, [] => matchSimple rest []
  | .optChar c :: rest, x :: xs =>
      if x = c then
        match matchSimple rest xs with
        | some r => some r
        | none => matchSimple rest (x :: xs)
      else matchSimple rest (x :: xs)

/-- Lazy expansion of the single capture group `(.*?)`: the shortest
capture (each captured character subject to the dot class) after which
the tail `post` of the pattern matches. -/
def lazyMatch (post : List RItem) (acc : List Char) (cs : List Char) :
    Option (List Char) :=
  match matchSimple post cs with
  | some _ => some acc.reverse
  | none =>
    match cs with
    | [] => none
    | x :: xs => if isDot x then lazyMatch post (x :: acc) xs else none

/-- A source pattern: simple items before the capture group, the capture
group `(.*?)`, and simple items after it.  Every pattern in
`NODES_REG_EXPS` has this shape. -/
structure Pat where
  pre : List RItem
  post : List RItem
deriving DecidableEq, Repr

/-- Match a pattern at the start of `cs`, returning the capture. -/
def matchPatAt (p : Pat) (cs : List Char) : Option (List Char) :=
  match matchSimple p.pre cs with
  | none => none
  | some rest => lazyMatch p.post [] rest

/-- `RegExp.prototype.exec`: leftmost match wins; returns capture group 1
or `null`. -/
def execPat (p : Pat) : List Char → Option (List Char)
  | [] => matchPatAt p []
  | c :: xs =>
    match matchPatAt p (c :: xs) with
    | some cap => some cap
    | none => execPat p xs

/-- Literal characters of a pattern. -/
def lits (s : String) : List RItem := s.data.map RItem.lit

/-- `<meta\s*ATTR\s*content="(.*?)"\s*\/?>` where `ATTR` is
`property="..."` or `name="..."`. -/
def metaPat (attr : String) : Pat where
  pre := lits "<meta" ++ [RItem.wsStar] ++ lits attr ++ [RItem.wsStar] ++
    lits "content=\""
  post := [RItem.lit '"', RItem.wsStar, RItem.optChar '/', RItem.lit '>']

/-- `NODES_REG_EXPS.head`: `/<head>(.*?)<\/head>/i`. -/
def headPat : Pat := ⟨lits "<head>", lits "</head>"⟩

/-- `NODES_REG_EXPS.title`: `/<title>(.*?)<\/title>/i`. -/
def titlePat : Pat := ⟨lits "<title>", lits "</title>"⟩

/-- `NODES_REG_EXPS.url`. -/
def urlPat : Pat := metaPat "property=\"og:url\""

/-- `NODES_REG_EXPS.siteName`. -/
def siteNamePat : Pat := metaPat "property=\"og:site_name\""

/-- `NODES_REG_EXPS.description`. -/
def descriptionPat : Pat := metaPat "property=\"og:description\""

/-- `NODES_REG_EXPS.description2`. -/
def description2Pat : Pat := metaPat "name=\"description\""

/-- `NODES_REG_EXPS.keywords`. -/
def keywordsPat : Pat := metaPat "name=\"keywords\""

/-- `NODES_REG_EXPS.author`. -/
def authorPat : Pat := metaPat "name=\"author\""

/-- `html.replace(NEWLINE_REGEXP, " ")` with
`NEWLINE_REGEXP = /\r?\n|\r/g`: each `\r\n`, `\n` or `\r`, scanned left
to right, becomes a single space. -/
def collapseNewlines : List Char → List Char
  | [] => []
  | '\r' :: '\n' :: rest => ' ' :: collapseNewlines rest
  | '\n' :: rest => ' ' :: collapseNewlines rest
  | '\r' :: rest => ' ' :: collapseNewlines rest
  | c :: rest => c :: collapseNewlines rest

/-- `getNodeValue(html, node)`: run the pattern and return capture group
1, or `null`.  A `null` first argument is coerced by `exec` to the
string `"null"`, as JavaScript does. -/
def getNodeValue (html : Option String) (node : Pat) : Option String :=
  let s := match html with | none => "null" | some s => s
  (execPat node s.data).map fun l => String.mk l

/-- The Metadata record: six fields, each `null`able. -/
structure Metadata where
  url : Option String
  siteName : Option String
  title : Option String
  description : Option String
  keywords : Option (List String)
  author : Option String
deriving DecidableEq, Repr

/-- The all-`null` record returned for degenerate input. -/
def emptyMetadata : Metadata :=
  { url := none, siteName := none, title := none, description := none,
    keywords := none, author := none }

/-- JavaScript `a || b` on `null`able strings: a string is falsy exactly
when it is empty. -/
def jsOrStr (a b : Option String) : Option String :=
  match a with
  | none => b
  | some s => if s = "" then b else some s

/-- JavaScript `String.prototype.split` with a single-character
separator (or, via a predicate, a character-class regexp): empty pieces
between consecutive separators are kept. -/
def splitOnPred (p : Char → Bool) : List Char → List (List Char)
  | [] => [[]]
  | c :: rest =>
    if p c then [] :: splitOnPred p rest
    else
      match splitOnPred p rest with
      | [] => [[c]]
      | h :: t => (c :: h) :: t

/-- The `keywords` field:
`getNodeValue(head, keywords)?.split(",").filter(k => !!k) || null`.
When the optional chain short-circuits (`undefined || null` is `null`)
the field is `null`; otherwise the split-and-filter array is returned
unconditionally, an empty array being truthy in JavaScript. -/
def keywordsField (head : Option String) : Option (List String) :=
  match getNodeValue head keywordsPat with
  | none => none
  | some s =>
    some (((splitOnPred (· = ',') s.data).map fun l => String.mk l).filter
      fun k => k ≠ "")

/-- `getMetadata(html)`: the exported extractor.  A missing (`null` /
`undefined`) argument is `none`; the `!html || typeof html !== "string"`
guard is modelled by the `none` and empty-string cases, the only
degenerate inputs expressible in the typed embedding. -/
def getMetadata (html : Option String) : Metadata :=
  match html with
  | none => emptyMetadata
  | some s =>
    if s = "" then emptyMetadata
    else
      let flatHtml := String.mk (collapseNewlines s.data)
      let head := getNodeValue (some flatHtml) headPat
      { url := getNodeValue head urlPat
        siteName := getNodeValue head siteNamePat
        title := getNodeValue head titlePat
        description :=
          jsOrStr (getNodeValue head descriptionPat)
            (getNodeValue head description2Pat)
        keywords := keywordsField head
        author := getNodeValue head authorPat }

/-! The filter (`filterMetadata` and its helpers). -/

/-- `SPECIAL_CHARS_REGEXP = /[@#$%^&*_=+.,-]/g`. -/
def isSpecialChar (c : Char) : Bool :=
  c = '@' || c = '#' || c = '$' || c = '%' || c = '^' || c = '&' ||
  c = '*' || c = '_' || c = '=' || c = '+' || c = '.' || c = ',' ||
  c = '-'

/-- JavaScript `String.prototype.length`: UTF-16 code units. -/
def utf16Len (s : String) : Nat :=
  (s.data.map fun c => if c.toNat ≥ 0x10000 then 2 else 1).sum

/-- `word.replace(SPECIAL_CHARS_REGEXP, "")`. -/
def stripSpecialChars (word : String) : String :=
  String.mk (word.data.filter fun c => !isSpecialChar c)

/-- `handleSpecialChars(word)`: a word without special characters stays
alone; otherwise the pieces split on every special character, plus the
word with the special characters removed, plus the word itself. -/
def handleSpecialChars (word : String) : List String :=
  if !word.data.any isSpecialChar then [word]
  else
    ((splitOnPred isSpecialChar word.data).map fun l => String.mk l) ++
      [stripSpecialChars word, word]

/-- `getQueryArray(query)`: split on single spaces, expand each word
through `handleSpecialChars` (the `reduce`/`push` is a flat map), keep
tokens of length (UTF-16 code units) greater than 1. -/
def getQueryArray (query : String) : List String :=
  (((splitOnPred (· = ' ') query.data).map fun l => String.mk l).flatMap
      handleSpecialChars).filter
    fun word => utf16Len word > 1

/-- `Array.prototype.join`'s conversion of one element: `null` and
`undefined` become the empty string. -/
def jsJoinElemStr : Option String → String
  | none => ""
  | some s => s

/-- `join(" ")` converts a nested array element with `String(array)`,
which joins it with commas; `null` becomes the empty string. -/
def jsJoinElemArr : Option (List String) → String
  | none => ""
  | some l => String.intercalate "," l

/-- `formatMetadataValues(metadata)`:
`Object.values(metadata).join(" ").replace(SPECIAL_CHARS_REGEXP, "").toLowerCase()`,
the six values in declaration order. -/
def formatMetadataValues (m : Metadata) : String :=
  let joined := String.intercalate " "
    [jsJoinElemStr m.url, jsJoinElemStr m.siteName, jsJoinElemStr m.title,
      jsJoinElemStr m.description, jsJoinElemArr m.keywords,
      jsJoinElemStr m.author]
  String.mk ((joined.data.filter fun c => !isSpecialChar c).map Char.toLower)

/-- `hay.includes(needle)` at character level: `startsWithChars`
compares a candidate position. -/
def startsWithChars : List Char → List Char → Bool
  | [], _ => true
  | _ :: _, [] => false
  | a :: as, b :: bs => a = b && startsWithChars as bs

/-- `String.prototype.includes`: the needle occurs as a contiguous
substring of the haystack. -/
def containsSub (hay needle : List Char) : Bool :=
  match hay with
  | [] => startsWithChars needle []
  | _ :: t => startsWithChars needle hay || containsSub t needle

/-- `doesMetadataMatch(metadata, query)`: some candidate token,
lowercased, is a substring of the formatted record text. -/
def doesMetadataMatch (m : Metadata) (query : List String) : Bool :=
  let values := formatMetadataValues m
  query.any fun word =>
    containsSub values.data (word.data.map Char.toLower)

/-- `filterMetadata(metadata, query)`: the exported filter.  The
`!metadata || !Array.isArray(metadata) || typeof query !== "string"`
guard has no inhabitant in the typed embedding; the empty-query guard
returns the input unchanged. -/
def filterMetadata (metadata : List Metadata) (query : String) :
    List Metadata :=
  if query = "" then metadata
  else
    let queryArray := getQueryArray query
    metadata.filter fun m => doesMetadataMatch m queryArray

end GetMetadata

namespace GetMetadata

/-! Concrete documents and records used by the theorems below. -/

/-- A head whose `<title>` element and `keywords` content are present but
empty / empty-after-split. -/
def cexEmptyValues : String :=
  "<head><title></title><meta name=\"keywords\" content=\",\"></head>"

/-- A head carrying an `og:description` tag with empty content together
with a populated `name="description"` tag. -/
def cexEmptyOgDescription : String :=
  "<head><meta property=\"og:description\" content=\"\"><meta name=\"description\" content=\"X\"></head>"

/-- A record whose title contains the substring `lightyear`. -/
def lightyearRecord : Metadata :=
  { url := none, siteName := none, title := some "A Lightyear Away",
    description := none, keywords := none, author := none }

/-! Substring machinery lemmas. -/

theorem startsWithChars_iff (needle hay : List Char) :
    startsWithChars needle hay = true ↔ ∃ r, hay = needle ++ r := by
  induction needle generalizing hay with
  | nil => simp [startsWithChars]
  | cons a as ih =>
    cases hay with
    | nil => simp [startsWithChars]
    | cons b bs =>
      simp only [startsWithChars, Bool.and_eq_true, decide_eq_true_eq, ih,
        List.cons_append, List.cons.injEq]
      constructor
      · rintro ⟨rfl, r, rfl⟩
        exact ⟨r, rfl, rfl⟩
      · rintro ⟨r, rfl, rfl⟩
        exact ⟨rfl, r, rfl⟩

theorem containsSub_iff (hay needle : List Char) :
    containsSub hay needle = true ↔ ∃ l r, hay = l ++ needle ++ r := by
  induction hay with
  | nil =>
    simp only [containsSub, startsWithChars_iff]
    constructor
    · rintro ⟨r, hr⟩
      exact ⟨[], r, by simpa using hr⟩
    · rintro ⟨l, r, hr⟩
      have h2 : l = [] ∧ needle = [] ∧ r = [] := by
        simpa [List.append_eq_nil] using hr.symm
      exact ⟨[], by simp [h2.2.1]⟩
  | cons c t ih =>
    simp only [containsSub, Bool.or_eq_true, startsWithChars_iff, ih]
    constructor
    · rintro (⟨r, hr⟩ | ⟨l, r, rfl⟩)
      · exact ⟨[], r, by simpa using hr⟩
      · exact ⟨c :: l, r, rfl⟩
    · rintro ⟨l, r, hl⟩
      cases l with
      | nil => exact Or.inl ⟨r, by simpa using hl⟩
      | cons x xs =>
        simp only [List.cons_append, List.cons.injEq] at hl
        exact Or.inr ⟨xs, r, hl.2⟩

end GetMetadata

namespace GetMetadata

/-! The head pattern only fires on a literal (case-insensitive)
`<head>`. -/

theorem matchSimple_lits_startsWith (w : List Char) :
    ∀ cs : List Char, (matchSimple (w.map RItem.lit) cs).isSome = true →
      startsWithChars (w.map Char.toLower) (cs.map Char.toLower) = true := by
  induction w with
  | nil => intro cs _; rfl
  | cons a as ih =>
    intro cs h
    cases cs with
    | nil => simp [matchSimple] at h
    | cons x xs =>
      by_cases hx : x.toLower = a.toLower
      · simp only [List.map_cons, matchSimple, hx, if_pos] at h
        simp only [List.map_cons, startsWithChars, Bool.and_eq_true,
          decide_eq_true_eq]
        exact ⟨hx.symm, ih xs h⟩
      · simp [matchSimple, hx] at h

theorem execPat_headPat_containsSub :
    ∀ cs : List Char, (execPat headPat cs).isSome = true →
      containsSub (cs.map Char.toLower) "<head>".data = true := by
  intro cs
  induction cs with
  | nil => intro h; simp [execPat, matchPatAt, headPat, lits, matchSimple] at h
  | cons c t ih =>
    intro h
    cases hm : matchPatAt headPat (c :: t) with
    | some cap =>
      have hpre : (matchSimple headPat.pre (c :: t)).isSome = true := by
        unfold matchPatAt at hm
        cases h2 : matchSimple headPat.pre (c :: t) with
        | none => rw [h2] at hm; exact absurd hm (by simp)
        | some r => simp
      have hsw := matchSimple_lits_startsWith "<head>".data (c :: t) hpre
      have hfix : "<head>".data.map Char.toLower = "<head>".data := by decide
      rw [hfix] at hsw
      simp only [List.map_cons, containsSub, Bool.or_eq_true]
      exact Or.inl (by simpa using hsw)
    | none =>
      rw [execPat, hm] at h
      simp only [List.map_cons, containsSub, Bool.or_eq_true]
      exact Or.inr (ih (by simpa using h))

theorem headNone_of_not_contains (cs : List Char)
    (h : containsSub (cs.map Char.toLower) "<head>".data = false) :
    execPat headPat cs = none := by
  cases he : execPat headPat cs with
  | none => rfl
  | some cap =>
    have hc := execPat_headPat_containsSub cs (by simp [he])
    rw [h] at hc
    exact absurd hc (by simp)

/-! Unfolding helpers for `getMetadata`. -/

theorem getMetadata_of_headNone (html : String) (h1 : html ≠ "")
    (h2 : execPat headPat (collapseNewlines html.data) = none) :
    getMetadata (some html) = emptyMetadata := by
  have hnv : getNodeValue (some (String.mk (collapseNewlines html.data)))
      headPat = none := by
    unfold getNodeValue
    simp [h2]
  simp only [getMetadata, if_neg h1]
  rw [hnv]
  decide

theorem getMetadata_description (html : String) (h1 : html ≠ "") :
    (getMetadata (some html)).description =
      jsOrStr
        (getNodeValue
          (getNodeValue (some (String.mk (collapseNewlines html.data))) headPat)
          descriptionPat)
        (getNodeValue
          (getNodeValue (some (String.mk (collapseNewlines html.data))) headPat)
          description2Pat) := by
  simp only [getMetadata, if_neg h1]

end GetMetadata

namespace GetMetadata

/-! Newline-collapsing lemmas. -/

theorem collapseNewlines_append (a : List Char)
    (ha : ∀ c ∈ a, c ≠ '\r' ∧ c ≠ '\n') (b : List Char) :
    collapseNewlines (a ++ b) = a ++ collapseNewlines b := by
  induction a with
  | nil => rfl
  | cons c t ih =>
    have hc := ha c (by simp)
    have ht : ∀ x ∈ t, x ≠ '\r' ∧ x ≠ '\n' := fun x hx => ha x (by simp [hx])
    rw [List.cons_append]
    rcases htb : t ++ b with _ | ⟨d, rest2⟩ <;>
      simp [collapseNewlines, hc.1, hc.2, ← htb, ih ht]

theorem collapseNewlines_crlf (a b : List Char)
    (ha : ∀ c ∈ a, c ≠ '\r' ∧ c ≠ '\n') :
    collapseNewlines (a ++ '\r' :: '\n' :: b) = a ++ ' ' :: collapseNewlines b := by
  rw [collapseNewlines_append a ha]
  simp [collapseNewlines]

theorem collapseNewlines_lf (a b : List Char)
    (ha : ∀ c ∈ a, c ≠ '\r' ∧ c ≠ '\n') :
    collapseNewlines (a ++ '\n' :: b) = a ++ ' ' :: collapseNewlines b := by
  rw [collapseNewlines_append a ha]
  rcases b with _ | ⟨d, rest2⟩ <;> simp [collapseNewlines]

theorem collapseNewlines_cr (a b : List Char)
    (ha : ∀ c ∈ a, c ≠ '\r' ∧ c ≠ '\n') (hb : b.head? ≠ some '\n') :
    collapseNewlines (a ++ '\r' :: b) = a ++ ' ' :: collapseNewlines b := by
  rw [collapseNewlines_append a ha]
  rcases b with _ | ⟨d, rest2⟩
  · simp [collapseNewlines]
  · have hd : d ≠ '\n' := by
      intro hdd
      exact hb (by simp [hdd])
    simp [collapseNewlines, hd]

end GetMetadata

namespace GetMetadata

/-- Claim C1 (refuted by the code, which here contradicts its own
documentation): at a head whose `<title>` element is empty and whose
keywords content is a lone comma, the extractor returns the empty string
for `title` and the empty array for `keywords`, although the source's
doc comment promises `null` whenever a value is empty and the spec's
invariant says no field is ever an empty string or an empty sequence. -/
theorem claim_C1_empty_values_bug :
    (getMetadata (some cexEmptyValues)).title = some "" ∧
    (getMetadata (some cexEmptyValues)).keywords = some [] :=
  ⟨by decide, by decide⟩

/-- Claim C2: for every record list and non-empty query, the filter
returns exactly the records, in input order, whose flattened,
special-character-stripped, lowercased field text contains some
candidate token (lowercased) as a literal substring — a raw substring
test, OR-ed over all tokens. -/
theorem claim_C2_filter_characterization (records : List Metadata)
    (q : String) (h : q ≠ "") :
    filterMetadata records q =
      records.filter (fun m =>
        (getQueryArray q).any fun w =>
          containsSub (formatMetadataValues m).data (w.data.map Char.toLower))
    ∧ ∀ m : Metadata,
      (((getQueryArray q).any fun w =>
          containsSub (formatMetadataValues m).data (w.data.map Char.toLower))
            = true
        ↔ ∃ w ∈ getQueryArray q, ∃ l r : List Char,
            (formatMetadataValues m).data = l ++ w.data.map Char.toLower ++ r) := by
  constructor
  · simp only [filterMetadata, if_neg h]
    rfl
  · intro m
    simp only [List.any_eq_true, containsSub_iff]

/-- Witness for C2 at a concrete record list and query. -/
theorem claim_C2_witness :
    filterMetadata [lightyearRecord] "away" =
      [lightyearRecord].filter (fun m =>
        (getQueryArray "away").any fun w =>
          containsSub (formatMetadataValues m).data (w.data.map Char.toLower)) :=
  (claim_C2_filter_characterization [lightyearRecord] "away" (by decide)).1

/-- Claim C3: tokenization splits on single spaces, keeps a word without
special characters as-is, expands a word with special characters into
the split pieces plus the stripped concatenation plus the original word,
and discards every token of length at most 1; `light-year` yields the
four documented tokens and matches a record containing `lightyear`,
while the query `a` yields no tokens. -/
theorem claim_C3_tokenization :
    (∀ w : String, w.data.any isSpecialChar = false →
        handleSpecialChars w = [w])
    ∧ (∀ w : String, w.data.any isSpecialChar = true →
        handleSpecialChars w =
          ((splitOnPred isSpecialChar w.data).map fun l => String.mk l) ++
            [stripSpecialChars w, w])
    ∧ (∀ q t : String, t ∈ getQueryArray q → utf16Len t > 1)
    ∧ getQueryArray "light-year" = ["light", "year", "lightyear", "light-year"]
    ∧ getQueryArray "a" = []
    ∧ filterMetadata [lightyearRecord] "light-year" = [lightyearRecord] := by
  refine ⟨?_, ?_, ?_, by decide, by decide, by decide⟩
  · intro w hw
    simp [handleSpecialChars, hw]
  · intro w hw
    simp [handleSpecialChars, hw]
  · intro q t ht
    simp only [getQueryArray, List.mem_filter, decide_eq_true_eq] at ht
    exact ht.2

/-- Witness for C3 at concrete words. -/
theorem claim_C3_witness : handleSpecialChars "dog" = ["dog"] :=
  claim_C3_tokenization.1 "dog" (by decide)

/-- Claim C4: missing (`null`/`undefined`) and empty-string input both
produce the all-absent record without an error; the non-string case is
subsumed by the same guard and has no inhabitant in the typed
embedding. -/
theorem claim_C4_degenerate_extract :
    getMetadata none = emptyMetadata ∧ getMetadata (some "") = emptyMetadata :=
  ⟨rfl, rfl⟩

/-- Claim C5: the filter of an empty collection is empty for every
query, and the empty query returns the input collection unchanged. -/
theorem claim_C5_filter_degenerate :
    (∀ q : String, filterMetadata [] q = [])
    ∧ ∀ records : List Metadata, filterMetadata records "" = records := by
  constructor
  · intro q
    by_cases h : q = "" <;> simp [filterMetadata, h]
  · intro records
    simp [filterMetadata]

/-- Counterexample to claim C6 as stated: in
`cexEmptyOgDescription` the `og:description` pattern is present (it
captures the empty string), yet the extractor still falls back to the
`name="description"` value `X`, so the fallback is not taken exactly
when the pattern is absent. -/
theorem claim_C6_counterexample :
    getNodeValue
        (getNodeValue
          (some (String.mk (collapseNewlines cexEmptyOgDescription.data)))
          headPat)
        descriptionPat = some "" ∧
    (getMetadata (some cexEmptyOgDescription)).description = some "X" :=
  ⟨by decide, by decide⟩

/-- Claim C6 as amended: the fallback to `name="description"` is taken
exactly when the `og:description` pattern is absent or captures the
empty string; a head with only `name="description" content="X"` yields
`X`. -/
theorem claim_C6_description_fallback :
    (∀ html : String, html ≠ "" →
      ∀ ogVal fbVal : Option String,
        getNodeValue
          (getNodeValue (some (String.mk (collapseNewlines html.data)))
            headPat) descriptionPat = ogVal →
        getNodeValue
          (getNodeValue (some (String.mk (collapseNewlines html.data)))
            headPat) description2Pat = fbVal →
        ((ogVal = none ∨ ogVal = some "") →
            (getMetadata (some html)).description = fbVal)
          ∧ ∀ s : String, ogVal = some s → s ≠ "" →
              (getMetadata (some html)).description = some s)
    ∧ (getMetadata
        (some "<head><meta name=\"description\" content=\"X\"></head>")).description
        = some "X" := by
  refine ⟨?_, by decide⟩
  · intro html h1 ogVal fbVal hog hfb
    have hdesc := getMetadata_description html h1
    rw [hog, hfb] at hdesc
    constructor
    · rintro (rfl | rfl)
      · simpa [jsOrStr] using hdesc
      · simpa [jsOrStr] using hdesc
    · rintro s rfl hs
      simpa [jsOrStr, hs] using hdesc

/-- Witness for C6 (amended) at a concrete fallback document. -/
theorem claim_C6_witness :
    (getMetadata
      (some "<head><meta name=\"description\" content=\"Y\"></head>")).description
      = getNodeValue
          (getNodeValue
            (some (String.mk (collapseNewlines
              "<head><meta name=\"description\" content=\"Y\"></head>".data)))
            headPat) description2Pat :=
  ((claim_C6_description_fallback.1 _ (by decide) _ _ rfl rfl).1
    (Or.inl (by decide)))

/-- Claim C7: a non-empty document in which the head pattern finds no
span resolves every field to absent (the `null` head is coerced by
`exec` to the text `null`, which no field pattern matches). -/
theorem claim_C7_no_head_span (html : String) (h1 : html ≠ "")
    (h2 : getNodeValue (some (String.mk (collapseNewlines html.data)))
        headPat = none) :
    getMetadata (some html) = emptyMetadata := by
  apply getMetadata_of_headNone html h1
  unfold getNodeValue at h2
  simpa using h2

/-- Witness for C7 at a concrete headless document. -/
theorem claim_C7_witness :
    getMetadata (some "<p>no head here</p>") = emptyMetadata :=
  claim_C7_no_head_span "<p>no head here</p>" (by decide) (by decide)

/-- Claim C8: each line-break sequence (`\r\n`, `\n`, lone `\r`)
collapses to a single space, and a `<title>` element broken across two
lines is extracted as if it were on one line. -/
theorem claim_C8_newline_collapsing :
    (∀ a b : List Char, (∀ c ∈ a, c ≠ '\r' ∧ c ≠ '\n') →
      collapseNewlines (a ++ '\r' :: '\n' :: b) = a ++ ' ' :: collapseNewlines b
      ∧ collapseNewlines (a ++ '\n' :: b) = a ++ ' ' :: collapseNewlines b
      ∧ (b.head? ≠ some '\n' →
          collapseNewlines (a ++ '\r' :: b) = a ++ ' ' :: collapseNewlines b))
    ∧ getMetadata (some "<head><title>Hello\r\nWorld</title></head>") =
        getMetadata (some "<head><title>Hello World</title></head>")
    ∧ (getMetadata (some "<head><title>Hello\r\nWorld</title></head>")).title =
        some "Hello World" := by
  refine ⟨?_, by decide, by decide⟩
  intro a b ha
  exact ⟨collapseNewlines_crlf a b ha, collapseNewlines_lf a b ha,
    fun hb => collapseNewlines_cr a b ha hb⟩

/-- Witness for C8 at the empty surroundings. -/
theorem claim_C8_witness : collapseNewlines ['\r', '\n'] = [' '] := by
  simpa using (claim_C8_newline_collapsing.1 [] [] (by simp)).1

/-- Counterexample to claim C9 as stated: the all-absent record's
combined match string is five spaces (absent fields contribute the
empty string, not the text `null`), so the query `null` — whose sole
candidate token is `null` — does not match it. -/
theorem claim_C9_counterexample :
    filterMetadata [emptyMetadata] "null" = [] ∧
    getQueryArray "null" = ["null"] ∧
    emptyMetadata.url = none :=
  ⟨by decide, by decide, rfl⟩

/-- Claim C9 as amended: when a record is flattened for matching, every
absent field contributes the empty string (only the join's separator
spaces remain), so a record with all six fields absent has the
five-space combined string and the query `null` matches no such
record. -/
theorem claim_C9_absent_contribution :
    (∀ m : Metadata, m.url = none → m.siteName = none → m.title = none →
        m.description = none → m.keywords = none → m.author = none →
        formatMetadataValues m = "     ")
    ∧ filterMetadata [emptyMetadata] "null" = [] := by
  refine ⟨?_, by decide⟩
  rintro ⟨u, sn, t, d, k, a⟩ hu hsn ht hd hk ha
  simp only at hu hsn ht hd hk ha
  subst hu hsn ht hd hk ha
  decide

/-- Witness for C9 (amended) at the all-absent record. -/
theorem claim_C9_witness : formatMetadataValues emptyMetadata = "     " :=
  claim_C9_absent_contribution.1 emptyMetadata rfl rfl rfl rfl rfl rfl

/-- Claim C10: the head span is recognized only at a literal
(case-insensitive) `<head>`; a document whose lowercased, collapsed text
does not contain that substring — in particular one whose head element
carries attributes — yields the all-absent record. -/
theorem claim_C10_head_attributes :
    (∀ html : String, html ≠ "" →
      containsSub ((collapseNewlines html.data).map Char.toLower)
        "<head>".data = false →
      getMetadata (some html) = emptyMetadata)
    ∧ getMetadata
        (some "<html><head lang=\"en\"><title>T</title></head></html>") =
        emptyMetadata := by
  refine ⟨?_, by decide⟩
  intro html h1 h2
  exact getMetadata_of_headNone html h1 (headNone_of_not_contains _ h2)

/-- Witness for C10 at a concrete attributed head. -/
theorem claim_C10_witness :
    getMetadata (some "<head lang=\"x\"></head>") = emptyMetadata :=
  claim_C10_head_attributes.1 "<head lang=\"x\"></head>" (by decide) (by decide)

end GetMetadata
